import Mathlib

/-!
# Verification of the CRNSynthesis solver-calling core

Shallow embedding of `CRNSynthesis/solverCaller.py`: the iSAT and dReal
output parsers (`getCRNValues`, `getCRNValuesFromJSON`), the model-file
cost editor (`edit_cost`), the cost-decreasing synthesis loop
(`optimal_synthesis_decreasing_cost`), the result-file naming of
`call_solver`, the solution assembler (`get_full_solution`) and the
derivative evaluator (`gradient_function`).

Modelling conventions:
* Python strings are Lean `String`s; the substring test `sub in s` is
  modelled as `List.IsInfix` on the underlying character lists.
* Python dictionaries are modelled either as association lists
  (`List (String × α)`, insertion order = Python dict order) or as
  lookup functions `String → Option α` when only membership and lookup
  matter; dictionary assignment is overwrite-or-append, matching CPython.
* Regular-expression matching of one text line is abstracted into an
  inductive line classification (a line either matches a given pattern
  with the captured groups, or it does not); the patterns themselves are
  not re-implemented.
* Python floats are modelled as exact rationals (`Rat`); the numeric
  literals appearing in the verified scenarios are exactly representable
  computations in both models.
-/

/-! ## String utilities -/

/-- Python's substring test `sub in s`, as infix of character lists. -/
def strContains (s sub : String) : Bool := decide (sub.data <:+: s.data)

/-- Split a character list at every occurrence of `'_'`; model of
Python's `raw.split("_")` (single-character separator). -/
def splitUnderscore : List Char → List (List Char)
  | [] => [[]]
  | c :: rest =>
    if c = '_' then [] :: splitUnderscore rest
    else match splitUnderscore rest with
      | [] => [[c]]
      | w :: ws => (c :: w) :: ws

/-- Join character-list words with `'_'`; model of `"_".join(words)`. -/
def joinUnderscore : List (List Char) → List Char
  | [] => []
  | [w] => w
  | w :: ws => w ++ '_' :: joinUnderscore ws

/-- `"_".join(raw.split("_")[:-2])`: the variable name obtained by
stripping the last two underscore-delimited tokens from a raw name
(dReal encodes mode and segment indices there). -/
def stripModeSegment (raw : String) : String :=
  String.mk (joinUnderscore ((splitUnderscore raw.data).dropLast.dropLast))

/-- `os.path.join dir name` for a relative `name` and a directory not
ending in a separator, the only shapes this code produces. -/
def pathJoin (dir name : String) : String := dir ++ "/" ++ name

/-! ## iSAT output parser (`SolverCallerISAT.getCRNValues`)

A line of iSAT output is classified by the two regexes of the source:
`p = "(.+?) \(.+?\):"` (a header line naming a variable, with the
captured name) and `p2 = ".+?[\[\(](.+?),(.+?)[\]\)].+"` (a data line
carrying an interval, with the two captured bounds).  The source tests
`p` first and `p2` only in an `elif`, so each line acts as exactly one
of: header, data, or neither. -/

/-- One line of iSAT output, as seen through the two regexes. -/
inductive ILine where
  | header (name : String)
  | data (low high : String)
  | other
  deriving DecidableEq

/-- An interval as parsed: the pair of raw bound strings. -/
abbrev Iv := String × String

/-- Parser state of `SolverCallerISAT.getCRNValues`: the
`constant_values` and `all_values` dictionaries (the distinguished
`all_values["time"]` list is kept in the separate `times` field), and
the current-variable cursor `var_name` (`none` models Python `False`). -/
structure IState where
  constant_values : String → Option Iv
  all_values : String → Option Iv
  times : List String
  var_name : Option String

/-- Initial parser state: empty dictionaries, empty time list, no cursor. -/
def IState.init : IState :=
  ⟨fun _ => none, fun _ => none, [], none⟩

/-- Processing of one line by `SolverCallerISAT.getCRNValues`
(lines 288–310 of `solverCaller.py`). -/
def isatStep (st : IState) (l : ILine) : IState :=
  match l with
  | .header name =>
    if strContains name "solver" || strContains name "_trigger" || name = "inputTime" then
      { st with var_name := none }
    else
      { st with var_name := some name }
  | .data lo hi =>
    match st.var_name with
    | none => st
    | some v =>
      if v = "time" then
        { st with times := st.times ++ [hi] }
      else if (st.all_values v).isNone then
        { st with
          constant_values := fun s => if s = v then some (lo, hi) else st.constant_values s
          all_values := fun s => if s = v then some (lo, hi) else st.all_values s }
      else if (st.constant_values v).isSome ∧ st.constant_values v ≠ some (lo, hi) then
        { st with constant_values := fun s => if s = v then none else st.constant_values s }
      else st
  | .other => st

/-- `SolverCallerISAT.getCRNValues` over a classified line list. -/
def isatGetCRNValues (ls : List ILine) : IState :=
  ls.foldl isatStep IState.init

/-- Cursor evolution: only header lines move the cursor. -/
def stepCursor (c : Option String) (l : ILine) : Option String :=
  match l with
  | .header name =>
    if strContains name "solver" || strContains name "_trigger" || name = "inputTime" then
      none
    else some name
  | _ => c

/-- The intervals observed for variable `v`: the data lines attached to
`v` by the cursor discipline, in order, starting from cursor `c`. -/
def observedIAux (c : Option String) (v : String) : List ILine → List Iv
  | [] => []
  | .header name :: ls => observedIAux (stepCursor c (.header name)) v ls
  | .data lo hi :: ls => (if c = some v then [(lo, hi)] else []) ++ observedIAux c v ls
  | .other :: ls => observedIAux c v ls

/-- The intervals observed for variable `v` in a full parser run. -/
def observedI (v : String) (ls : List ILine) : List Iv :=
  observedIAux none v ls

/-! ### The per-variable update summarised as a pure fold -/

/-- The effect of one observed interval on one variable's
(`constant_values`, `all_values`) entries: first observation records it
in both; a later differing observation demotes the variable out of
`constant_values`; nothing is ever re-promoted. -/
def demote : Option Iv × Option Iv → Iv → Option Iv × Option Iv
  | (cv, av), iv =>
    match av with
    | none => (some iv, some iv)
    | some _ =>
      match cv with
      | some j => if j ≠ iv then (none, av) else (cv, av)
      | none => (cv, av)

theorem isatStep_var_name (st : IState) (l : ILine) :
    (isatStep st l).var_name = stepCursor st.var_name l := by
  cases l with
  | header name =>
    simp only [isatStep, stepCursor]
    split <;> rfl
  | data lo hi =>
    cases h : st.var_name with
    | none => simp [isatStep, stepCursor, h]
    | some v =>
      simp only [isatStep, stepCursor, h]
      by_cases hv : v = "time"
      · rw [if_pos hv]
      · rw [if_neg hv]
        split
        · rfl
        · split
          · rfl
          · exact h
  | other => rfl

theorem isatStep_header_entry (st : IState) (name v : String) :
    ((isatStep st (.header name)).constant_values v,
     (isatStep st (.header name)).all_values v) =
      (st.constant_values v, st.all_values v) := by
  simp only [isatStep]
  split <;> rfl

theorem isatStep_data_none (st : IState) (lo hi : String) (h : st.var_name = none) :
    isatStep st (.data lo hi) = st := by
  simp [isatStep, h]

theorem isatStep_data_miss (st : IState) (lo hi w v : String)
    (h : st.var_name = some w) (hw : w ≠ v) :
    ((isatStep st (.data lo hi)).constant_values v,
     (isatStep st (.data lo hi)).all_values v) =
      (st.constant_values v, st.all_values v) := by
  have hvw : ¬v = w := fun hvw => hw hvw.symm
  simp only [isatStep, h]
  by_cases hwt : w = "time"
  · rw [if_pos hwt]
  · rw [if_neg hwt]
    split
    · simp [hvw]
    · split
      · simp [hvw]
      · rfl

theorem isatStep_data_hit (st : IState) (lo hi v : String)
    (h : st.var_name = some v) (hv : v ≠ "time") :
    ((isatStep st (.data lo hi)).constant_values v,
     (isatStep st (.data lo hi)).all_values v) =
      demote (st.constant_values v, st.all_values v) (lo, hi) := by
  simp only [isatStep, h]
  rw [if_neg hv]
  cases hav : st.all_values v with
  | none =>
    rw [if_pos (show (none : Option Iv).isNone = true from rfl)]
    simp [demote, hav]
  | some a =>
    rw [if_neg (by simp : ¬(some a : Option Iv).isNone = true)]
    cases hcv : st.constant_values v with
    | none =>
      rw [if_neg (by simp : ¬((none : Option Iv).isSome = true ∧
        (none : Option Iv) ≠ some (lo, hi)))]
      simp [demote, hav, hcv]
    | some j =>
      by_cases hj : j = (lo, hi)
      · rw [if_neg (by simp [hj] : ¬((some j : Option Iv).isSome = true ∧
          (some j : Option Iv) ≠ some (lo, hi)))]
        simp [demote, hav, hcv, hj]
      · rw [if_pos (by simp [hj] : (some j : Option Iv).isSome = true ∧
          (some j : Option Iv) ≠ some (lo, hi))]
        simp [demote, hav, hcv, hj]

theorem isat_fold_entry (v : String) (hv : v ≠ "time") (ls : List ILine) (st : IState) :
    ((ls.foldl isatStep st).constant_values v, (ls.foldl isatStep st).all_values v) =
      (observedIAux st.var_name v ls).foldl demote
        (st.constant_values v, st.all_values v) := by
  induction ls generalizing st with
  | nil => rfl
  | cons l ls ih =>
    rw [List.foldl_cons, ih]
    cases l with
    | header name =>
      simp only [observedIAux]
      rw [isatStep_var_name, isatStep_header_entry]
    | other =>
      simp only [observedIAux]
      have hst : isatStep st .other = st := rfl
      rw [hst]
    | data lo hi =>
      have hcur : (isatStep st (.data lo hi)).var_name = st.var_name := by
        rw [isatStep_var_name]; rfl
      rw [hcur]
      simp only [observedIAux]
      cases hc : st.var_name with
      | none =>
        rw [isatStep_data_none st lo hi hc]
        rw [if_neg (by simp : ¬(none : Option String) = some v)]
        rw [List.nil_append]
      | some w =>
        by_cases hw : w = v
        · subst hw
          rw [isatStep_data_hit st lo hi w hc hv, if_pos rfl]
          rw [List.singleton_append, List.foldl_cons]
        · rw [isatStep_data_miss st lo hi w v hc hw]
          rw [if_neg (by simp [hw] : ¬(some w : Option String) = some v)]
          rw [List.nil_append]

theorem foldl_demote_none (a : Iv) (ivs : List Iv) :
    ivs.foldl demote (none, some a) = (none, some a) := by
  induction ivs with
  | nil => rfl
  | cons b ivs ih => simpa [demote] using ih

theorem foldl_demote_const (a : Iv) (ivs : List Iv) :
    ivs.foldl demote (some a, some a) =
      ((if ∀ x ∈ ivs, x = a then some a else none), some a) := by
  induction ivs with
  | nil => simp
  | cons b ivs ih =>
    by_cases hb : b = a
    · subst hb
      have hstep : demote (some b, some b) b = (some b, some b) := by
        simp [demote]
      rw [List.foldl_cons, hstep, ih]
      by_cases hall : ∀ x ∈ ivs, x = b
      · rw [if_pos hall, if_pos (by
          intro x hx
          rcases List.mem_cons.mp hx with h | h
          · exact h
          · exact hall x h)]
      · rw [if_neg hall,
          if_neg (fun hall2 => hall (fun x hx => hall2 x (List.mem_cons.mpr (Or.inr hx))))]
    · have hstep : demote (some a, some a) b = (none, some a) := by
        simp [demote, Ne.symm hb]
      rw [List.foldl_cons, hstep, foldl_demote_none]
      have hnot : ¬∀ x ∈ b :: ivs, x = a := by
        intro hall
        exact hb (hall b (List.mem_cons_self b ivs))
      rw [if_neg hnot]

theorem foldl_demote_head (a : Iv) (rest : List Iv) :
    rest.foldl demote (demote (none, none) a) =
      ((if ∀ x ∈ rest, x = a then some a else none), some a) := by
  have h0 : demote ((none : Option Iv), (none : Option Iv)) a = (some a, some a) := by
    simp [demote]
  rw [h0, foldl_demote_const]

/-- Bridging the two phrasings of "some pair of observed intervals
differs": a tail element differing from the head, versus two differing
elements anywhere in the sequence. -/
theorem exists_pair_ne_iff (a : Iv) (rest : List Iv) :
    (∃ I ∈ a :: rest, ∃ J ∈ a :: rest, I ≠ J) ↔ ¬∀ x ∈ rest, x = a := by
  constructor
  · rintro ⟨I, hI, J, hJ, hne⟩ hall
    have hall' : ∀ x ∈ a :: rest, x = a := by
      intro x hx
      rcases List.mem_cons.mp hx with h | h
      · exact h
      · exact hall x h
    exact hne ((hall' I hI).trans (hall' J hJ).symm)
  · intro h
    push_neg at h
    rcases h with ⟨b, hbmem, hbne⟩
    exact ⟨a, List.mem_cons_self a rest, b, List.mem_cons.mpr (Or.inr hbmem), Ne.symm hbne⟩

/-! ## dReal proof-file parser (`SolverCallerDReal.getCRNValues`)

A line of a `.smt2.proof` file is classified by the single regex
`p = "\t([A-Za-z_0-9]+) : [\[\(]([\d.]+?), ([\d.]+?)[\]\)]"`; a matching
line carries the raw variable name and the two interval bounds.  The
captured raw name contains no whitespace, so the source's `.strip()` is
the identity on it. -/

/-- One line of dReach proof output, as seen through the regex. -/
inductive DLine where
  | entry (raw low high : String)
  | other
  deriving DecidableEq

/-- Parser state of `SolverCallerDReal.getCRNValues`: `constant_values`
and `all_values` (the preset `all_values["time"]` list is the separate
`times` field; times are kept as the raw bound strings, the source's
`float()` conversion being the identity on their numeric value). -/
structure DState where
  constant_values : String → Option Iv
  all_values : String → Option Iv
  times : List String

/-- Initial dReal parser state. -/
def DState.init : DState := ⟨fun _ => none, fun _ => none, []⟩

/-- Processing of one line by `SolverCallerDReal.getCRNValues`
(lines 425–457 of `solverCaller.py`).  The conjunct `v ≠ "time"` in the
first-seen test models the preset `"time"` key of `all_values`: a
derived name equal to `"time"` is never first-seen and is dropped. -/
def drealStep (st : DState) (l : DLine) : DState :=
  match l with
  | .other => st
  | .entry raw lo hi =>
    let v := stripModeSegment raw
    if v = "inputTime" then st
    else if v = "" ∧ "time_".data.isPrefixOf raw.data then
      { st with times := st.times ++ [hi] }
    else if v = "" then st
    else if strContains v "mode_" then st
    else if v ≠ "time" ∧ (st.all_values v).isNone then
      { st with
        constant_values := fun s => if s = v then some (lo, hi) else st.constant_values s
        all_values := fun s => if s = v then some (lo, hi) else st.all_values s }
    else if (st.constant_values v).isSome ∧ st.constant_values v ≠ some (lo, hi) then
      { st with constant_values := fun s => if s = v then none else st.constant_values s }
    else st

/-- `SolverCallerDReal.getCRNValues` over a classified line list. -/
def drealGetCRNValues (ds : List DLine) : DState :=
  ds.foldl drealStep DState.init

/-- The intervals a dReal proof line carries for derived name `v`. -/
def dEntryFor (v : String) : DLine → List Iv
  | .entry raw lo hi => if stripModeSegment raw = v then [(lo, hi)] else []
  | .other => []

/-- The intervals observed for derived variable name `v` in a dReal
proof file. -/
def observedD (v : String) : List DLine → List Iv
  | [] => []
  | l :: ls => dEntryFor v l ++ observedD v ls

theorem drealStep_miss (st : DState) (raw lo hi v : String)
    (hw : stripModeSegment raw ≠ v) :
    ((drealStep st (.entry raw lo hi)).constant_values v,
     (drealStep st (.entry raw lo hi)).all_values v) =
      (st.constant_values v, st.all_values v) := by
  have hvw : ¬v = stripModeSegment raw := fun h => hw h.symm
  simp only [drealStep]
  split
  · rfl
  · split
    · rfl
    · split
      · rfl
      · split
        · rfl
        · split
          · simp [hvw]
          · split
            · simp [hvw]
            · rfl

theorem drealStep_hit (st : DState) (raw lo hi v : String)
    (hr : stripModeSegment raw = v) (hv0 : v ≠ "") (hv1 : v ≠ "inputTime")
    (hvt : v ≠ "time") (hvm : strContains v "mode_" = false) :
    ((drealStep st (.entry raw lo hi)).constant_values v,
     (drealStep st (.entry raw lo hi)).all_values v) =
      demote (st.constant_values v, st.all_values v) (lo, hi) := by
  simp only [drealStep, hr]
  rw [if_neg hv1]
  rw [if_neg (fun hand => hv0 hand.1)]
  rw [if_neg hv0]
  rw [if_neg (by rw [hvm]; exact fun hfalse => Bool.false_ne_true hfalse)]
  cases hav : st.all_values v with
  | none =>
    rw [if_pos ⟨hvt, show (none : Option Iv).isNone = true from rfl⟩]
    simp [demote, hav]
  | some a =>
    rw [if_neg (fun hand => by simpa using hand.2)]
    cases hcv : st.constant_values v with
    | none =>
      rw [if_neg (fun hand => by simpa using hand.1)]
      simp [demote, hav, hcv]
    | some j =>
      by_cases hj : j = (lo, hi)
      · rw [if_neg (fun hand => hand.2 (by rw [hj]))]
        simp [demote, hav, hcv, hj]
      · rw [if_pos ⟨rfl, by simp [hj]⟩]
        simp [demote, hav, hcv, hj]

theorem dreal_fold_entry (v : String) (hv0 : v ≠ "") (hv1 : v ≠ "inputTime")
    (hvt : v ≠ "time") (hvm : strContains v "mode_" = false)
    (ds : List DLine) (st : DState) :
    ((ds.foldl drealStep st).constant_values v, (ds.foldl drealStep st).all_values v) =
      (observedD v ds).foldl demote (st.constant_values v, st.all_values v) := by
  induction ds generalizing st with
  | nil => rfl
  | cons l ds ih =>
    rw [List.foldl_cons, ih, observedD, List.foldl_append]
    cases l with
    | other =>
      have hst : drealStep st .other = st := rfl
      rw [hst]
      rfl
    | entry raw lo hi =>
      by_cases hr : stripModeSegment raw = v
      · rw [show dEntryFor v (.entry raw lo hi) = [(lo, hi)] by
          simp [dEntryFor, hr]]
        rw [drealStep_hit st raw lo hi v hr hv0 hv1 hvt hvm]
        rfl
      · rw [show dEntryFor v (.entry raw lo hi) = [] by
          simp [dEntryFor, hr]]
        rw [drealStep_miss st raw lo hi v hr]
        rfl

/-- Shared characterization: if a variable's final
(`constant_values`, `all_values`) pair is produced by folding `demote`
over its nonempty observation sequence from an empty start, then it is
absent from `constant_values` iff two observations differ, and its
`all_values` entry is the first observation. -/
theorem demotion_spec (cv av : Option Iv) (obs : List Iv) (hne : obs ≠ [])
    (h : (cv, av) = obs.foldl demote (none, none)) :
    (cv = none ↔ ∃ I ∈ obs, ∃ J ∈ obs, I ≠ J) ∧ av = obs.head? := by
  obtain ⟨a, rest, rfl⟩ := List.exists_cons_of_ne_nil hne
  rw [List.foldl_cons, foldl_demote_head] at h
  rw [Prod.ext_iff] at h
  obtain ⟨h1, h2⟩ := h
  simp only at h1 h2
  constructor
  · rw [h1]
    by_cases hall : ∀ x ∈ rest, x = a
    · rw [if_pos hall]
      simp only [reduceCtorEq, false_iff]
      rw [exists_pair_ne_iff]
      exact fun hcon => hcon hall
    · rw [if_neg hall]
      simp only [true_iff]
      exact (exists_pair_ne_iff a rest).mpr hall
  · rw [h2]
    rfl

/-- The concrete iSAT output used as the demotion witness: `k_1` is
observed twice with differing intervals. -/
def demotionWitnessILines : List ILine :=
  [.header "k_1", .data "0.2" "0.4", .header "k_1", .data "0.5" "0.6"]

/-- The concrete dReach proof output used as the demotion witness:
`k_1` is observed twice with identical intervals. -/
def demotionWitnessDLines : List DLine :=
  [.entry "k_1_0_0" "0.2" "0.4", .entry "k_1_1_0" "0.2" "0.4"]

/-- C1.  For every sequence of intervals observed by `getCRNValues` for
one variable name `[I1, ..., In]` (`n ≥ 1`), the variable is absent
from the returned `constant_values` iff some pair of observed intervals
differs, and it is present in `all_values` with value `I1` regardless —
for both the iSAT and the dReal line parser. -/
theorem getCRNValues_demotion
    (ls : List ILine) (ds : List DLine) (v : String)
    (hvt : v ≠ "time") (hv0 : v ≠ "") (hv1 : v ≠ "inputTime")
    (hvm : strContains v "mode_" = false)
    (hI : observedI v ls ≠ []) (hD : observedD v ds ≠ []) :
    ((isatGetCRNValues ls).constant_values v = none ↔
       ∃ I ∈ observedI v ls, ∃ J ∈ observedI v ls, I ≠ J) ∧
    (isatGetCRNValues ls).all_values v = (observedI v ls).head? ∧
    ((drealGetCRNValues ds).constant_values v = none ↔
       ∃ I ∈ observedD v ds, ∃ J ∈ observedD v ds, I ≠ J) ∧
    (drealGetCRNValues ds).all_values v = (observedD v ds).head? := by
  have hIfold : ((isatGetCRNValues ls).constant_values v,
      (isatGetCRNValues ls).all_values v) =
      (observedI v ls).foldl demote (none, none) :=
    isat_fold_entry v hvt ls IState.init
  have hDfold : ((drealGetCRNValues ds).constant_values v,
      (drealGetCRNValues ds).all_values v) =
      (observedD v ds).foldl demote (none, none) :=
    dreal_fold_entry v hv0 hv1 hvt hvm ds DState.init
  obtain ⟨hIiff, hIhead⟩ := demotion_spec _ _ _ hI hIfold
  obtain ⟨hDiff, hDhead⟩ := demotion_spec _ _ _ hD hDfold
  exact ⟨hIiff, hIhead, hDiff, hDhead⟩

theorem getCRNValues_demotion_witness :
    (isatGetCRNValues demotionWitnessILines).constant_values "k_1" = none ∧
    (isatGetCRNValues demotionWitnessILines).all_values "k_1" = some ("0.2", "0.4") ∧
    (drealGetCRNValues demotionWitnessDLines).constant_values "k_1" = some ("0.2", "0.4") ∧
    (drealGetCRNValues demotionWitnessDLines).all_values "k_1" = some ("0.2", "0.4") := by
  have h := getCRNValues_demotion demotionWitnessILines demotionWitnessDLines "k_1"
    (by decide) (by decide) (by decide) (by decide) (by decide) (by decide)
  refine ⟨?_, ?_, ?_, ?_⟩
  · exact h.1.mpr ⟨("0.2", "0.4"), by decide, ("0.5", "0.6"), by decide, by decide⟩
  · rw [h.2.1]
    decide
  · decide
  · rw [h.2.2.2]
    decide

/-! ## C7: empty or truncated input -/

theorem isat_foldl_other (ls : List ILine) (st : IState)
    (h : ∀ l ∈ ls, l = ILine.other) : ls.foldl isatStep st = st := by
  induction ls with
  | nil => rfl
  | cons l ls ih =>
    have hl : l = ILine.other := h l (List.mem_cons_self l ls)
    subst hl
    rw [List.foldl_cons]
    exact ih (fun x hx => h x (List.mem_cons.mpr (Or.inr hx)))

theorem dreal_foldl_other (ds : List DLine) (st : DState)
    (h : ∀ l ∈ ds, l = DLine.other) : ds.foldl drealStep st = st := by
  induction ds with
  | nil => rfl
  | cons l ds ih =>
    have hl : l = DLine.other := h l (List.mem_cons_self l ds)
    subst hl
    rw [List.foldl_cons]
    exact ih (fun x hx => h x (List.mem_cons.mpr (Or.inr hx)))

/-- C7.  On an empty or truncated result file — one in which no line
matches a header or interval pattern — both `getCRNValues` parsers
run to completion and return mappings with no variable entries and an
empty time sequence. -/
theorem getCRNValues_empty_input (ls : List ILine) (ds : List DLine)
    (hls : ∀ l ∈ ls, l = ILine.other) (hds : ∀ l ∈ ds, l = DLine.other) :
    (∀ v, (isatGetCRNValues ls).constant_values v = none ∧
          (isatGetCRNValues ls).all_values v = none) ∧
    (isatGetCRNValues ls).times = [] ∧
    (∀ v, (drealGetCRNValues ds).constant_values v = none ∧
          (drealGetCRNValues ds).all_values v = none) ∧
    (drealGetCRNValues ds).times = [] := by
  rw [isatGetCRNValues, drealGetCRNValues,
    isat_foldl_other ls IState.init hls, dreal_foldl_other ds DState.init hds]
  exact ⟨fun v => ⟨rfl, rfl⟩, rfl, fun v => ⟨rfl, rfl⟩, rfl⟩

theorem getCRNValues_empty_input_witness :
    (isatGetCRNValues []).constant_values "k_1" = none ∧
    (isatGetCRNValues []).all_values "k_1" = none ∧
    (isatGetCRNValues []).times = [] ∧
    (drealGetCRNValues []).constant_values "k_1" = none ∧
    (drealGetCRNValues []).all_values "k_1" = none ∧
    (drealGetCRNValues []).times = [] := by
  have h := getCRNValues_empty_input [] [] (by simp) (by simp)
  exact ⟨(h.1 "k_1").1, (h.1 "k_1").2, h.2.1, (h.2.2.1 "k_1").1, (h.2.2.1 "k_1").2, h.2.2.2⟩

/-! ## dReal structured-trace parser (`SolverCallerDReal.getCRNValuesFromJSON`)

The JSON document's first trace group `results["traces"][0]` is a list
of traces; each trace has a `"key"` and a list of `"values"` entries,
each entry carrying an `"enclosure"` bound pair.  Enclosure bounds are
modelled as exact rationals. -/

/-- One timestamped entry of a trace: its enclosure (a bound pair,
kept as the list the JSON holds). -/
structure JEntry where
  enclosure : List Rat
  deriving DecidableEq

/-- One named trace of the first trace group. -/
structure JTrace where
  key : String
  values : List JEntry
  deriving DecidableEq

/-- Processing of one trace by `getCRNValuesFromJSON`
(lines 480–499 of `solverCaller.py`).  The source indexes
`t["values"][0]` unconditionally and raises `IndexError` on a trace
with no entries; that branch is modelled as a skip and is excluded by
hypothesis wherever it matters. -/
def jsonStep (acc : (String → Option (List Rat)) × (String → Option (List Rat)))
    (t : JTrace) : (String → Option (List Rat)) × (String → Option (List Rat)) :=
  let v := stripModeSegment t.key
  if v = "" then acc
  else
    match t.values with
    | [] => acc
    | e0 :: _ =>
      let interval := e0.enclosure
      let single := t.values.all (fun e => decide (e.enclosure = interval))
      ((if single then fun s => if s = v then some interval else acc.1 s else acc.1),
       fun s => if s = v then some interval else acc.2 s)

/-- `SolverCallerDReal.getCRNValuesFromJSON` over the first trace
group: returns the `(constant_values, all_values)` lookup pair. -/
def getCRNValuesFromJSON (traces0 : List JTrace) :
    (String → Option (List Rat)) × (String → Option (List Rat)) :=
  traces0.foldl jsonStep (fun _ => none, fun _ => none)

theorem jsonStep_miss (acc : (String → Option (List Rat)) × (String → Option (List Rat)))
    (t : JTrace) (v : String) (h : stripModeSegment t.key ≠ v) :
    ((jsonStep acc t).1 v, (jsonStep acc t).2 v) = (acc.1 v, acc.2 v) := by
  have hvw : ¬v = stripModeSegment t.key := fun hh => h hh.symm
  simp only [jsonStep]
  split
  · rfl
  · split
    · rfl
    · split
      · simp [hvw]
      · simp [hvw]

theorem json_foldl_miss (ts : List JTrace)
    (acc : (String → Option (List Rat)) × (String → Option (List Rat))) (v : String)
    (h : ∀ u ∈ ts, stripModeSegment u.key ≠ v) :
    ((ts.foldl jsonStep acc).1 v, (ts.foldl jsonStep acc).2 v) = (acc.1 v, acc.2 v) := by
  induction ts generalizing acc with
  | nil => rfl
  | cons t ts ih =>
    rw [List.foldl_cons]
    rw [ih (jsonStep acc t) (fun x hx => h x (List.mem_cons.mpr (Or.inr hx)))]
    exact jsonStep_miss acc t v (h t (List.mem_cons_self t ts))

theorem jsonStep_hit (acc : (String → Option (List Rat)) × (String → Option (List Rat)))
    (t : JTrace) (e0 : JEntry) (es : List JEntry)
    (hval : t.values = e0 :: es) (hv : stripModeSegment t.key ≠ "") :
    ((jsonStep acc t).1 (stripModeSegment t.key), (jsonStep acc t).2 (stripModeSegment t.key)) =
      ((if t.values.all (fun e => decide (e.enclosure = e0.enclosure)) then
          some e0.enclosure else acc.1 (stripModeSegment t.key)),
       some e0.enclosure) := by
  simp only [jsonStep, hval]
  rw [if_neg hv]
  split
  · simp [hval]
  · simp [hval]

/-- Two traces of the same derived name `X`: the later one overwrites
the earlier one's entries. -/
def jsonDupTraces : List JTrace :=
  [⟨"X_0_0", [⟨[0, 0]⟩]⟩, ⟨"X_1_0", [⟨[1, 1]⟩]⟩]

/-- Counterexample to C8 as stated: the first trace (derived name `X`,
first enclosure `[0,0]`, trivially constant) is NOT present in
`all_values` with its first enclosure, because a later trace with the
same derived name overwrote the entry. -/
theorem getCRNValuesFromJSON_counterexample :
    stripModeSegment "X_0_0" = "X" ∧
    stripModeSegment "X_1_0" = "X" ∧
    (getCRNValuesFromJSON jsonDupTraces).2 "X" ≠ some [(0 : Rat), 0] ∧
    (getCRNValuesFromJSON jsonDupTraces).2 "X" = some [(1 : Rat), 1] := by
  refine ⟨by decide, by decide, ?_, ?_⟩
  · decide
  · decide

/-- C8 (amended).  For a trace with a non-empty derived name and at
least one entry, and whose derived name is carried by no other trace of
the group (later traces with the same derived name overwrite earlier
entries), the trace is recorded in `constant_values` with its first
enclosure iff every entry's enclosure equals the first entry's
enclosure, and is recorded in `all_values` with its first enclosure in
all cases. -/
theorem getCRNValuesFromJSON_spec (pre post : List JTrace) (t : JTrace)
    (e0 : JEntry) (es : List JEntry) (hval : t.values = e0 :: es)
    (hv : stripModeSegment t.key ≠ "")
    (hpre : ∀ u ∈ pre, stripModeSegment u.key ≠ stripModeSegment t.key)
    (hpost : ∀ u ∈ post, stripModeSegment u.key ≠ stripModeSegment t.key) :
    (getCRNValuesFromJSON (pre ++ t :: post)).2 (stripModeSegment t.key) = some e0.enclosure ∧
    ((getCRNValuesFromJSON (pre ++ t :: post)).1 (stripModeSegment t.key) = some e0.enclosure ↔
      ∀ e ∈ t.values, e.enclosure = e0.enclosure) := by
  unfold getCRNValuesFromJSON
  rw [List.foldl_append, List.foldl_cons]
  have hpre' := json_foldl_miss pre (fun _ => none, fun _ => none)
    (stripModeSegment t.key) hpre
  have hpost' := json_foldl_miss post
    (jsonStep (pre.foldl jsonStep (fun _ => none, fun _ => none)) t)
    (stripModeSegment t.key) hpost
  have hhit := jsonStep_hit (pre.foldl jsonStep (fun _ => none, fun _ => none))
    t e0 es hval hv
  rw [Prod.mk.injEq] at hpre' hpost' hhit
  rw [hpost'.1, hpost'.2, hhit.1, hhit.2, hpre'.1]
  refine ⟨rfl, ?_⟩
  by_cases hs : t.values.all (fun e => decide (e.enclosure = e0.enclosure)) = true
  · rw [if_pos hs]
    simp only [List.all_eq_true, decide_eq_true_eq] at hs
    simp only [true_iff, iff_true]
    exact hs
  · rw [if_neg hs]
    constructor
    · intro hnone
      exact absurd hnone (by simp)
    · intro hall
      exact absurd (by simp only [List.all_eq_true, decide_eq_true_eq]; exact hall) hs

/-- The structured-trace scenario of the specification: one trace named
`X_0_1` with two identical `[0,0]` enclosures. -/
def jsonScenarioTrace : JTrace := ⟨"X_0_1", [⟨[0, 0]⟩, ⟨[0, 0]⟩]⟩

theorem getCRNValuesFromJSON_spec_witness :
    (getCRNValuesFromJSON [jsonScenarioTrace]).2 "X" = some [(0 : Rat), 0] ∧
    (getCRNValuesFromJSON [jsonScenarioTrace]).1 "X" = some [(0 : Rat), 0] := by
  have h := getCRNValuesFromJSON_spec [] [] jsonScenarioTrace ⟨[0, 0]⟩ [⟨[0, 0]⟩]
    (by decide) (by decide) (by simp) (by simp)
  exact ⟨h.1, h.2.mpr (by decide)⟩

/-! ## Model-file cost editor (`edit_cost`)

`edit_cost` reads the model file, splits its content on `"\n"`, rewrites
matching lines, joins with `"\n"` and writes the result back.  Since no
replacement string contains a newline, the round trip through the file
is the identity on the line list; the editor is therefore modelled on
the file content viewed as its list of lines. -/

/-- The cost-bound declaration marker tested by both editors. -/
def maxCostMarker : String := "define MAX_COST = "

/-- The cost-limit-disabled flag marker tested by both editors. -/
def noCostLimitMarker : String := "define NO_COST_LIMIT = "

/-- Rewriting of one line by `SolverCallerISAT.edit_cost`
(lines 227–235 of `solverCaller.py`).  Both substring tests inspect the
original line; when a line contains both markers the `NO_COST_LIMIT`
assignment is performed second and wins. -/
def isat_edit_line (cost : Int) (line : String) : String :=
  let l1 := if strContains line maxCostMarker then
    "define MAX_COST = " ++ toString cost ++ "; " else line
  if strContains line noCostLimitMarker then
    (if cost = 0 then "define NO_COST_LIMIT = 1;" else "define NO_COST_LIMIT = 0;")
  else l1

/-- `SolverCallerISAT.edit_cost` on the model file's line list. -/
def isat_edit_cost (cost : Int) (lines : List String) : List String :=
  lines.map (isat_edit_line cost)

/-- Rewriting of one line by `SolverCallerDReal.edit_cost`
(lines 369–377 of `solverCaller.py`): same tests, `#define`-style
replacements. -/
def dreal_edit_line (cost : Int) (line : String) : String :=
  let l1 := if strContains line maxCostMarker then
    "#define MAX_COST " ++ toString cost else line
  if strContains line noCostLimitMarker then
    (if cost = 0 then "#define NO_COST_LIMIT 1" else "#define NO_COST_LIMIT 0;")
  else l1

/-- `SolverCallerDReal.edit_cost` on the model file's line list. -/
def dreal_edit_cost (cost : Int) (lines : List String) : List String :=
  lines.map (dreal_edit_line cost)

/-! ### Characters of a rendered integer -/

theorem digitChar_lt10_isDigit (n : Nat) (h : n < 10) :
    (Nat.digitChar n).isDigit = true := by
  interval_cases n <;> decide

theorem toDigitsCore_chars (fuel : Nat) :
    ∀ (n : Nat) (acc : List Char), (∀ ch ∈ acc, ch.isDigit = true) →
      ∀ ch ∈ Nat.toDigitsCore 10 fuel n acc, ch.isDigit = true := by
  induction fuel with
  | zero =>
    intro n acc hacc ch hch
    exact hacc ch hch
  | succ fuel ih =>
    intro n acc hacc ch hch
    have hacc' : ∀ ch ∈ Nat.digitChar (n % 10) :: acc, ch.isDigit = true := by
      intro c hc
      rcases List.mem_cons.mp hc with h | h
      · subst h
        exact digitChar_lt10_isDigit _ (Nat.mod_lt _ (by norm_num))
      · exact hacc c h
    rw [Nat.toDigitsCore] at hch
    by_cases hz : n / 10 = 0
    · rw [if_pos hz] at hch
      exact hacc' ch hch
    · rw [if_neg hz] at hch
      exact ih (n / 10) _ hacc' ch hch

theorem natRepr_chars (n : Nat) : ∀ ch ∈ (Nat.repr n).data, ch.isDigit = true := by
  intro ch hch
  exact toDigitsCore_chars (n + 1) n [] (by simp) ch hch

theorem intToString_chars (c : Int) :
    ∀ ch ∈ (toString c).data, ch.isDigit = true ∨ ch = '-' := by
  intro ch hch
  cases c with
  | ofNat m =>
    exact Or.inl (natRepr_chars m ch hch)
  | negSucc m =>
    have hch' : ch ∈ ("-" ++ Nat.repr (m + 1)).data := hch
    rw [String.data_append] at hch'
    rcases List.mem_append.mp hch' with h | h
    · right
      simpa using h
    · exact Or.inl (natRepr_chars (m + 1) ch h)

/-- A marker containing a character that is neither a digit nor `'-'`
and occurs in neither literal part is not a substring of
`pre ++ toString c ++ suf`. -/
theorem strContains_int_sandwich_false (pre suf sub : String) (c : Int) (ch : Char)
    (hch : ch ∈ sub.data) (hpre : ch ∉ pre.data) (hsuf : ch ∉ suf.data)
    (hdigit : ch.isDigit = false) (hdash : ch ≠ '-') :
    strContains (pre ++ toString c ++ suf) sub = false := by
  rw [strContains, decide_eq_false_iff_not]
  intro hinf
  have hmem : ch ∈ (pre ++ toString c ++ suf).data := hinf.subset hch
  rw [String.data_append, String.data_append] at hmem
  rcases List.mem_append.mp hmem with h | h
  · rcases List.mem_append.mp h with h | h
    · exact hpre h
    · rcases intToString_chars c ch h with hd | hd
      · rw [hdigit] at hd
        exact Bool.false_ne_true hd
      · exact hdash hd
  · exact hsuf h

/-- A string is a substring of itself followed by anything. -/
theorem strContains_self_append (m rest : String) : strContains (m ++ rest) m = true := by
  rw [strContains, decide_eq_true_iff]
  rw [String.data_append]
  exact ⟨[], rest.data, by simp⟩

theorem string_append_empty (s : String) : s ++ "" = s := by
  cases s with
  | mk data =>
    show String.mk (data ++ []) = String.mk data
    rw [List.append_nil]

theorem isat_max_repl_contains (cost : Int) :
    strContains ("define MAX_COST = " ++ toString cost ++ "; ") maxCostMarker = true := by
  rw [String.append_assoc]
  exact strContains_self_append "define MAX_COST = " (toString cost ++ "; ")

theorem isat_max_repl_no_limit (cost : Int) :
    strContains ("define MAX_COST = " ++ toString cost ++ "; ") noCostLimitMarker = false :=
  strContains_int_sandwich_false "define MAX_COST = " "; " noCostLimitMarker cost 'L'
    (by decide) (by decide) (by decide) (by decide) (by decide)

theorem dreal_max_repl_no_max (cost : Int) :
    strContains ("#define MAX_COST " ++ toString cost) maxCostMarker = false := by
  have h := strContains_int_sandwich_false "#define MAX_COST " "" maxCostMarker cost '='
    (by decide) (by decide) (by decide) (by decide) (by decide)
  rwa [string_append_empty] at h

theorem dreal_max_repl_no_limit (cost : Int) :
    strContains ("#define MAX_COST " ++ toString cost) noCostLimitMarker = false := by
  have h := strContains_int_sandwich_false "#define MAX_COST " "" noCostLimitMarker cost '='
    (by decide) (by decide) (by decide) (by decide) (by decide)
  rwa [string_append_empty] at h

theorem isat_edit_line_idem (cost : Int) (line : String) :
    isat_edit_line cost (isat_edit_line cost line) = isat_edit_line cost line := by
  by_cases m2 : strContains line noCostLimitMarker = true
  · have h1 : isat_edit_line cost line =
        (if cost = 0 then "define NO_COST_LIMIT = 1;" else "define NO_COST_LIMIT = 0;") := by
      simp [isat_edit_line, m2]
    rw [h1]
    by_cases hc : cost = 0
    · rw [if_pos hc]
      simp [isat_edit_line, hc,
        (by decide : strContains "define NO_COST_LIMIT = 1;" noCostLimitMarker = true)]
    · rw [if_neg hc]
      simp [isat_edit_line, hc,
        (by decide : strContains "define NO_COST_LIMIT = 0;" noCostLimitMarker = true)]
  · have m2' : strContains line noCostLimitMarker = false := by
      revert m2
      cases strContains line noCostLimitMarker <;> simp
    by_cases m1 : strContains line maxCostMarker = true
    · have h1 : isat_edit_line cost line = "define MAX_COST = " ++ toString cost ++ "; " := by
        simp [isat_edit_line, m1, m2']
      rw [h1]
      simp [isat_edit_line, isat_max_repl_contains cost, isat_max_repl_no_limit cost]
    · have m1' : strContains line maxCostMarker = false := by
        revert m1
        cases strContains line maxCostMarker <;> simp
      have h1 : isat_edit_line cost line = line := by
        simp [isat_edit_line, m1', m2']
      rw [h1]
      exact h1

theorem dreal_edit_line_idem (cost : Int) (line : String) :
    dreal_edit_line cost (dreal_edit_line cost line) = dreal_edit_line cost line := by
  by_cases m2 : strContains line noCostLimitMarker = true
  · have h1 : dreal_edit_line cost line =
        (if cost = 0 then "#define NO_COST_LIMIT 1" else "#define NO_COST_LIMIT 0;") := by
      simp [dreal_edit_line, m2]
    rw [h1]
    by_cases hc : cost = 0
    · rw [if_pos hc]
      simp [dreal_edit_line,
        (by decide : strContains "#define NO_COST_LIMIT 1" noCostLimitMarker = false),
        (by decide : strContains "#define NO_COST_LIMIT 1" maxCostMarker = false)]
    · rw [if_neg hc]
      simp [dreal_edit_line,
        (by decide : strContains "#define NO_COST_LIMIT 0;" noCostLimitMarker = false),
        (by decide : strContains "#define NO_COST_LIMIT 0;" maxCostMarker = false)]
  · have m2' : strContains line noCostLimitMarker = false := by
      revert m2
      cases strContains line noCostLimitMarker <;> simp
    by_cases m1 : strContains line maxCostMarker = true
    · have h1 : dreal_edit_line cost line = "#define MAX_COST " ++ toString cost := by
        simp [dreal_edit_line, m1, m2']
      rw [h1]
      simp [dreal_edit_line, dreal_max_repl_no_max cost, dreal_max_repl_no_limit cost]
    · have m1' : strContains line maxCostMarker = false := by
        revert m1
        cases strContains line maxCostMarker <;> simp
      have h1 : dreal_edit_line cost line = line := by
        simp [dreal_edit_line, m1', m2']
      rw [h1]
      exact h1

/-- A line containing both declaration markers. -/
def bothMarkersLine : String := "define MAX_COST = define NO_COST_LIMIT = 0"

/-- Counterexample to C3 as stated: a line containing the `MAX_COST`
marker is not rewritten to declare the new cost value when it also
contains the `NO_COST_LIMIT` marker — the flag rewrite, performed
second, wins in both editors. -/
theorem edit_cost_counterexample :
    strContains bothMarkersLine maxCostMarker = true ∧
    strContains bothMarkersLine noCostLimitMarker = true ∧
    isat_edit_line 5 bothMarkersLine ≠ "define MAX_COST = 5; " ∧
    isat_edit_line 5 bothMarkersLine = "define NO_COST_LIMIT = 0;" ∧
    dreal_edit_line 5 bothMarkersLine ≠ "#define MAX_COST 5" ∧
    dreal_edit_line 5 bothMarkersLine = "#define NO_COST_LIMIT 0;" := by
  refine ⟨by decide, by decide, by decide, by decide, by decide, by decide⟩

/-- C3 (amended).  For every file content (as a list of lines) and
cost, both `edit_cost`s rewrite each line containing the
`NO_COST_LIMIT` marker to the disabled value (1) when `cost = 0` and
the enabled value (0) otherwise; rewrite each line containing the
`MAX_COST` marker but not the `NO_COST_LIMIT` marker to declare the
new cost value (when a line contains both markers, the `NO_COST_LIMIT`
rewrite is performed second and wins); and pass every line containing
neither marker through unchanged, preserving line order. -/
theorem edit_cost_line_rules (cost : Int) (lines : List String) :
    isat_edit_cost cost lines = lines.map (isat_edit_line cost) ∧
    dreal_edit_cost cost lines = lines.map (dreal_edit_line cost) ∧
    ∀ line : String,
      (strContains line noCostLimitMarker = true →
        isat_edit_line cost line =
          (if cost = 0 then "define NO_COST_LIMIT = 1;" else "define NO_COST_LIMIT = 0;") ∧
        dreal_edit_line cost line =
          (if cost = 0 then "#define NO_COST_LIMIT 1" else "#define NO_COST_LIMIT 0;")) ∧
      (strContains line maxCostMarker = true →
        strContains line noCostLimitMarker = false →
        isat_edit_line cost line = "define MAX_COST = " ++ toString cost ++ "; " ∧
        dreal_edit_line cost line = "#define MAX_COST " ++ toString cost) ∧
      (strContains line maxCostMarker = false →
        strContains line noCostLimitMarker = false →
        isat_edit_line cost line = line ∧ dreal_edit_line cost line = line) := by
  refine ⟨rfl, rfl, ?_⟩
  intro line
  refine ⟨?_, ?_, ?_⟩
  · intro m2
    exact ⟨by simp [isat_edit_line, m2], by simp [dreal_edit_line, m2]⟩
  · intro m1 m2
    exact ⟨by simp [isat_edit_line, m1, m2], by simp [dreal_edit_line, m1, m2]⟩
  · intro m1 m2
    exact ⟨by simp [isat_edit_line, m1, m2], by simp [dreal_edit_line, m1, m2]⟩

theorem edit_cost_line_rules_witness :
    isat_edit_line 5 "define MAX_COST = 20; " = "define MAX_COST = 5; " ∧
    isat_edit_line 5 "define NO_COST_LIMIT = 1;" = "define NO_COST_LIMIT = 0;" ∧
    isat_edit_line 5 "MODE.1;" = "MODE.1;" ∧
    dreal_edit_line 5 "#define MAX_COST 20" = "#define MAX_COST 20" := by
  have h := edit_cost_line_rules 5 []
  refine ⟨?_, ?_, ?_, ?_⟩
  · exact ((h.2.2 "define MAX_COST = 20; ").2.1 (by decide) (by decide)).1
  · have := ((h.2.2 "define NO_COST_LIMIT = 1;").1 (by decide)).1
    rw [this, if_neg (by decide : ¬(5 : Int) = 0)]
  · exact ((h.2.2 "MODE.1;").2.2 (by decide) (by decide)).1
  · exact ((h.2.2 "#define MAX_COST 20").2.2 (by decide) (by decide)).2

/-- C6.  Applying `edit_cost` twice with the same cost yields a file
identical to applying it once, for both editors. -/
theorem edit_cost_idempotent (cost : Int) (lines : List String) :
    isat_edit_cost cost (isat_edit_cost cost lines) = isat_edit_cost cost lines ∧
    dreal_edit_cost cost (dreal_edit_cost cost lines) = dreal_edit_cost cost lines := by
  constructor
  · simp only [isat_edit_cost, List.map_map]
    exact List.map_congr_left (fun line _ => isat_edit_line_idem cost line)
  · simp only [dreal_edit_cost, List.map_map]
    exact List.map_congr_left (fun line _ => dreal_edit_line_idem cost line)

/-! ## Solver invocation and the cost-decreasing synthesis loop -/

/-- The result-file name written by `SolverCallerISAT.call_solver`
(line 258 of `solverCaller.py`); `precision` is the rendered value
interpolated by `%s`. -/
def isat_call_solver (results_dir model_name : String) (cost : Int)
    (precision : String) : String :=
  pathJoin results_dir (model_name ++ "_" ++ toString cost ++ "_" ++ precision ++ "-isat.txt")

/-- `SolverCallerDReal.call_solver` (lines 382–405): the pair of the
result file receiving the captured output (line 396) and the returned
`.smt2.proof` path (line 405).  The returned path is built from
`os.getcwd()` (the `cwd` parameter) and `self.num_modes - 1`; the
`max_depth` argument (Python default `False`, modelled as `0`, falling
back to `num_modes`) only enters the command line, not either path. -/
def dreal_call_solver (cwd results_dir model_name : String) (num_modes : Int)
    (precision : String) (cost : Int) (_max_depth : Int) : String × String :=
  (pathJoin results_dir (model_name ++ "_" ++ toString cost ++ "_" ++ precision ++ "-dreal.txt"),
   pathJoin cwd (model_name ++ "_" ++ toString (num_modes - 1) ++ "_0.smt2.proof"))

/-- The sequence of cost values taken by the `while cost >= min_cost`
loop of `optimal_synthesis_decreasing_cost` (both backends): starts at
`max_cost`, decrements by 1, stops below `min_cost`. -/
def cost_schedule (cost min_cost : Int) : List Int :=
  if cost ≥ min_cost then cost :: cost_schedule (cost - 1) min_cost else []
termination_by (cost - min_cost + 1).toNat
decreasing_by simp_wf; omega

/-- `SolverCallerISAT.optimal_synthesis_decreasing_cost`
(lines 206–217): one result-file name appended per iteration. -/
def isat_optimal_synthesis (results_dir model_name precision : String)
    (cost min_cost : Int) : List String :=
  if cost ≥ min_cost then
    isat_call_solver results_dir model_name cost precision ::
      isat_optimal_synthesis results_dir model_name precision (cost - 1) min_cost
  else []
termination_by (cost - min_cost + 1).toNat
decreasing_by simp_wf; omega

/-- `SolverCallerDReal.optimal_synthesis_decreasing_cost`
(lines 351–358): appends `call_solver`'s return value — the proof
path — per iteration. -/
def dreal_optimal_synthesis (cwd results_dir model_name : String) (num_modes : Int)
    (precision : String) (cost min_cost : Int) (max_depth : Int) : List String :=
  if cost ≥ min_cost then
    (dreal_call_solver cwd results_dir model_name num_modes precision cost max_depth).2 ::
      dreal_optimal_synthesis cwd results_dir model_name num_modes precision
        (cost - 1) min_cost max_depth
  else []
termination_by (cost - min_cost + 1).toNat
decreasing_by simp_wf; omega

theorem cost_schedule_closed : ∀ (n : Nat) (maxc minc : Int),
    (maxc - minc + 1).toNat = n →
    cost_schedule maxc minc = (List.range n).map (fun i : Nat => maxc - (i : Int)) := by
  intro n
  induction n with
  | zero =>
    intro maxc minc h
    rw [cost_schedule, if_neg (by omega)]
    simp
  | succ n ih =>
    intro maxc minc h
    have hge : maxc ≥ minc := by omega
    rw [cost_schedule, if_pos hge]
    rw [ih (maxc - 1) minc (by omega)]
    rw [List.range_succ_eq_map, List.map_cons, List.map_map]
    refine congrArg₂ _ (by simp) ?_
    exact List.map_congr_left (fun i _ => by
      simp only [Function.comp_apply]
      push_cast
      ring)

theorem isat_optimal_synthesis_eq_map : ∀ (n : Nat) (rd mn p : String) (maxc minc : Int),
    (maxc - minc + 1).toNat = n →
    isat_optimal_synthesis rd mn p maxc minc =
      (cost_schedule maxc minc).map (fun c => isat_call_solver rd mn c p) := by
  intro n
  induction n with
  | zero =>
    intro rd mn p maxc minc h
    rw [isat_optimal_synthesis, if_neg (by omega), cost_schedule, if_neg (by omega)]
    rfl
  | succ n ih =>
    intro rd mn p maxc minc h
    have hge : maxc ≥ minc := by omega
    rw [isat_optimal_synthesis, if_pos hge, cost_schedule, if_pos hge, List.map_cons]
    rw [ih rd mn p (maxc - 1) minc (by omega)]

theorem dreal_optimal_synthesis_eq_map :
    ∀ (n : Nat) (cwd rd mn : String) (nm : Int) (p : String) (maxc minc md : Int),
    (maxc - minc + 1).toNat = n →
    dreal_optimal_synthesis cwd rd mn nm p maxc minc md =
      (cost_schedule maxc minc).map
        (fun c => (dreal_call_solver cwd rd mn nm p c md).2) := by
  intro n
  induction n with
  | zero =>
    intro cwd rd mn nm p maxc minc md h
    rw [dreal_optimal_synthesis, if_neg (by omega), cost_schedule, if_neg (by omega)]
    rfl
  | succ n ih =>
    intro cwd rd mn nm p maxc minc md h
    have hge : maxc ≥ minc := by omega
    rw [dreal_optimal_synthesis, if_pos hge, cost_schedule, if_pos hge, List.map_cons]
    rw [ih cwd rd mn nm p (maxc - 1) minc md (by omega)]

/-- C2.  `optimal_synthesis_decreasing_cost` (both backends) returns an
empty result-file list when `max_cost < min_cost`; when
`max_cost ≥ min_cost` the returned list has length
`max_cost - min_cost + 1`, one file per cost value, and the cost values
used across iterations are exactly `max_cost, max_cost - 1, ...,
min_cost` — strictly decreasing by 1, both ends inclusive. -/
theorem optimal_synthesis_schedule (cwd rd mn p : String) (nm md : Int)
    (maxc minc : Int) :
    (maxc < minc →
      isat_optimal_synthesis rd mn p maxc minc = [] ∧
      dreal_optimal_synthesis cwd rd mn nm p maxc minc md = []) ∧
    (minc ≤ maxc →
      (isat_optimal_synthesis rd mn p maxc minc).length = (maxc - minc + 1).toNat ∧
      (dreal_optimal_synthesis cwd rd mn nm p maxc minc md).length =
        (maxc - minc + 1).toNat ∧
      cost_schedule maxc minc =
        (List.range (maxc - minc + 1).toNat).map (fun i : Nat => maxc - (i : Int)) ∧
      isat_optimal_synthesis rd mn p maxc minc =
        (cost_schedule maxc minc).map (fun c => isat_call_solver rd mn c p) ∧
      dreal_optimal_synthesis cwd rd mn nm p maxc minc md =
        (cost_schedule maxc minc).map
          (fun c => (dreal_call_solver cwd rd mn nm p c md).2)) := by
  constructor
  · intro hlt
    constructor
    · rw [isat_optimal_synthesis, if_neg (by omega)]
    · rw [dreal_optimal_synthesis, if_neg (by omega)]
  · intro hge
    have hsched := cost_schedule_closed (maxc - minc + 1).toNat maxc minc rfl
    have hisat := isat_optimal_synthesis_eq_map (maxc - minc + 1).toNat rd mn p maxc minc rfl
    have hdreal := dreal_optimal_synthesis_eq_map (maxc - minc + 1).toNat
      cwd rd mn nm p maxc minc md rfl
    refine ⟨?_, ?_, hsched, hisat, hdreal⟩
    · rw [hisat, List.length_map, hsched, List.length_map, List.length_range]
    · rw [hdreal, List.length_map, hsched, List.length_map, List.length_range]

theorem optimal_synthesis_schedule_witness :
    isat_optimal_synthesis "r" "m" "0.1" 3 5 = [] ∧
    (isat_optimal_synthesis "r" "m" "0.1" 5 3).length = 3 ∧
    cost_schedule 5 3 = [5, 4, 3] := by
  have h1 := optimal_synthesis_schedule "c" "r" "m" "0.1" 2 2 3 5
  have h2 := optimal_synthesis_schedule "c" "r" "m" "0.1" 2 2 5 3
  refine ⟨(h1.1 (by decide)).1, ?_, ?_⟩
  · exact ((h2.2 (by decide)).1).trans (by decide)
  · exact ((h2.2 (by decide)).2.2.1).trans (by decide)

/-- C5 (amended).  For every cost and max_depth, the dReal backend's
`call_solver` returns the fixed path
`<cwd>/<model_name>_<num_modes - 1>_0.smt2.proof`, where `num_modes` is
the constructor-configured mode count — independent of both the cost
and the per-call `max_depth` argument (it equals
`<model_name>_<max_depth - 1>_0.smt2.proof` only when `max_depth` is
left at its default `num_modes`). -/
theorem dreal_call_solver_proof_path (cwd rd mn : String) (nm : Int) (p : String)
    (cost md cost' md' : Int) :
    (dreal_call_solver cwd rd mn nm p cost md).2 =
      pathJoin cwd (mn ++ "_" ++ toString (nm - 1) ++ "_0.smt2.proof") ∧
    (dreal_call_solver cwd rd mn nm p cost md).2 =
      (dreal_call_solver cwd rd mn nm p cost' md').2 :=
  ⟨rfl, rfl⟩

/-- Counterexample to C5 as stated: with configured `num_modes = 2` and
per-call `max_depth = 5`, the returned proof path encodes `1`
(`num_modes - 1`), not `4` (`max_depth - 1`). -/
theorem dreal_call_solver_path_counterexample :
    (dreal_call_solver "/cwd" "/r" "model" 2 "0.1" 7 5).2 ≠
      pathJoin "/cwd" ("model" ++ "_" ++ toString (5 - 1 : Int) ++ "_0.smt2.proof") ∧
    (dreal_call_solver "/cwd" "/r" "model" 2 "0.1" 7 5).2 =
      pathJoin "/cwd" "model_1_0.smt2.proof" := by
  refine ⟨by decide, by decide⟩

/-! ## Symbolic expressions, the solution assembler and the derivative
evaluator

SymPy expressions are embedded as a small arithmetic AST over exact
rationals.  `subs` of a numeric value for a symbol is structural
substitution; `evalf(subs=vals)` substitutes the bound symbols and
folds constant subterms, leaving unbound symbols symbolic.  SymPy's
automatic normalization of products is not modelled; equalities over
the AST are structural. -/

/-- A symbolic arithmetic expression (the fragment the flows use). -/
inductive Expr where
  | num : Rat → Expr
  | sym : String → Expr
  | add : Expr → Expr → Expr
  | mul : Expr → Expr → Expr
  | neg : Expr → Expr
  deriving DecidableEq

/-- `e.subs(Symbol v, r)`: replace symbol `v` by the number `r`. -/
def Expr.subsNum : Expr → String → Rat → Expr
  | .num q, _, _ => .num q
  | .sym s, v, r => if s = v then .num r else .sym s
  | .add a b, v, r => .add (a.subsNum v r) (b.subsNum v r)
  | .mul a b, v, r => .mul (a.subsNum v r) (b.subsNum v r)
  | .neg a, v, r => .neg (a.subsNum v r)

/-- `e.evalf(subs=vals)`: substitute every bound symbol and evaluate
numeric subterms; unbound symbols remain symbolic. -/
def Expr.evalf : Expr → (String → Option Rat) → Expr
  | .num q, _ => .num q
  | .sym s, m =>
    match m s with
    | some r => .num r
    | none => .sym s
  | .add a b, m =>
    match a.evalf m, b.evalf m with
    | .num x, .num y => .num (x + y)
    | a', b' => .add a' b'
  | .mul a b, m =>
    match a.evalf m, b.evalf m with
    | .num x, .num y => .num (x * y)
    | a', b' => .mul a' b'
  | .neg a, m =>
    match a.evalf m with
    | .num x => .num (-x)
    | a' => .neg a'

/-- Python dict assignment `d[k] = v` on an insertion-ordered
association list: overwrite in place if the key exists, else append. -/
def dinsert (l : List (String × Rat)) (k : String) (v : Rat) : List (String × Rat) :=
  if l.any (fun p => p.1 == k) then l.map (fun p => if p.1 = k then (k, v) else p)
  else l ++ [(k, v)]

/-- `for x in flow: flow[x] = flow[x].subs(v, r)` — substitute in every
flow expression (keys are untouched). -/
def substFlow (flow : List (String × Expr)) (v : String) (r : Rat) : List (String × Expr) :=
  flow.map (fun p => (p.1, p.2.subsNum v r))

/-- Python `del d[k]`: remove the entry with key `k` (keys of a dict
are unique; a missing key raises `KeyError` in the source, which the
claims never exercise). -/
def delKey (l : List (String × Expr)) (k : String) : List (String × Expr) :=
  l.eraseP (fun p => p.1 == k)

/-- The part of the `CRNSketch` that `get_full_solution` consults: the
derivative names to drop from the returned flow. -/
structure CRN where
  derivatives : List String

/-- One iteration of the `for val in vals` loop of
`SolverCaller.get_full_solution` (lines 154–163 of `solverCaller.py`):
the distinguished `"time"` entry is skipped; a value named like a flow
species records its interval midpoint as that species' initial
condition; any other value has its midpoint substituted for its symbol
in every flow expression. -/
def gfsStep (var_names : List String)
    (acc : List (String × Rat) × List (String × Expr))
    (val : String × Rat × Rat) : List (String × Rat) × List (String × Expr) :=
  if val.1 = "time" then acc
  else if var_names.contains val.1 then
    (dinsert acc.1 val.1 ((val.2.1 + val.2.2) / 2), acc.2)
  else
    (acc.1, substFlow acc.2 val.1 ((val.2.1 + val.2.2) / 2))

/-- `SolverCaller.get_full_solution` (lines 140–174).  The extracted
interval bounds are the parsed `float(...)` values, modelled as exact
rationals.  Returns `(initial_conditions, parametrised_flow, flow)`
where the third component is the state of the caller's `flow` dictionary
after the call — the function mutates `flow` in place and only copies
it (`dict(flow)`) before deleting the derivative entries. -/
def get_full_solution (crn : CRN) (flow : List (String × Expr))
    (vals : List (String × Rat × Rat)) (scale_factor : Rat) :
    List (String × Rat) × List (String × Expr) × List (String × Expr) :=
  let var_names := flow.map (fun p => p.1)
  let step1 := vals.foldl (gfsStep var_names) ([], flow)
  let flow2 := substFlow step1.2 "SF" scale_factor
  let parametrised_flow := crn.derivatives.foldl delKey flow2
  (step1.1, parametrised_flow, flow2)

/-- The substitution dictionary built by `SolverCaller.gradient_function`
(lines 127–130): `vals = {"t": t}`, then `vals[species] = X[i]` for each
species in order (a species named `"t"` would overwrite the time
binding; the source indexes `X[i]` and assumes `X` is at least as long
as `species_list`, modelled by `zip`). -/
def gradientVals (X : List Rat) (t : Rat) (species_list : List String) :
    String → Option Rat :=
  (species_list.zip X).foldl (fun m p => fun s => if s = p.1 then some p.2 else m s)
    (fun s => if s = "t" then some t else none)

/-- `SolverCaller.gradient_function` (lines 115–137): evaluate each flow
expression under the state/time substitution dictionary, in flow order. -/
def gradient_function (X : List Rat) (t : Rat) (flow : List (String × Expr))
    (species_list : List String) : List Expr :=
  flow.map (fun p => p.2.evalf (gradientVals X t species_list))

/-- The extracted values that get substituted into the flow: neither
the distinguished `"time"` entry nor a flow species. -/
def applicableVals (var_names : List String) (vals : List (String × Rat × Rat)) :
    List (String × Rat × Rat) :=
  vals.filter (fun q => !(q.1 == "time") && !(var_names.contains q.1))

/-- Substitute one extracted value's interval midpoint for its symbol. -/
def substMid (e : Expr) (q : String × Rat × Rat) : Expr :=
  e.subsNum q.1 ((q.2.1 + q.2.2) / 2)

/-- The net substitution `get_full_solution` applies to one flow
expression: every applicable extracted midpoint in order, then the
scale factor for `SF`. -/
def substSeq (var_names : List String) (vals : List (String × Rat × Rat))
    (sf : Rat) (e : Expr) : Expr :=
  ((applicableVals var_names vals).foldl substMid e).subsNum "SF" sf

theorem gfs_flow_eq (var_names : List String) (vals : List (String × Rat × Rat))
    (ic0 : List (String × Rat)) (fl0 : List (String × Expr)) :
    (vals.foldl (gfsStep var_names) (ic0, fl0)).2 =
      fl0.map (fun p => (p.1, (applicableVals var_names vals).foldl substMid p.2)) := by
  induction vals generalizing ic0 fl0 with
  | nil =>
    simp [applicableVals]
  | cons q vals ih =>
    rw [List.foldl_cons]
    by_cases ht : q.1 = "time"
    · have hstep : gfsStep var_names (ic0, fl0) q = (ic0, fl0) := by
        simp [gfsStep, ht]
      rw [hstep, ih]
      have happ : applicableVals var_names (q :: vals) = applicableVals var_names vals := by
        simp [applicableVals, List.filter_cons, ht]
      rw [happ]
    · by_cases hc : var_names.contains q.1 = true
      · have hmem : q.1 ∈ var_names := by simpa using hc
        have hstep : gfsStep var_names (ic0, fl0) q =
            (dinsert ic0 q.1 ((q.2.1 + q.2.2) / 2), fl0) := by
          simp [gfsStep, ht, hc, hmem]
        rw [hstep, ih]
        have happ : applicableVals var_names (q :: vals) = applicableVals var_names vals := by
          simp [applicableVals, List.filter_cons, ht, hc, hmem]
        rw [happ]
      · have hc' : var_names.contains q.1 = false := by
          revert hc
          cases var_names.contains q.1 <;> simp
        have hnmem : q.1 ∉ var_names := by simpa using hc'
        have hstep : gfsStep var_names (ic0, fl0) q =
            (ic0, substFlow fl0 q.1 ((q.2.1 + q.2.2) / 2)) := by
          simp [gfsStep, ht, hc', hnmem]
        rw [hstep, ih]
        have happ : applicableVals var_names (q :: vals) =
            q :: applicableVals var_names vals := by
          simp [applicableVals, List.filter_cons, ht, hc', hnmem]
        rw [happ, substFlow, List.map_map]
        apply List.map_congr_left
        intro p _
        rfl

theorem dinsert_fresh (l : List (String × Rat)) (k : String) (v : Rat)
    (h : ∀ p ∈ l, p.1 ≠ k) : dinsert l k v = l ++ [(k, v)] := by
  have hany : l.any (fun p => p.1 == k) = false := by
    rw [List.any_eq_false]
    intro p hp
    simpa using h p hp
  simp [dinsert, hany]

theorem gfs_ic_eq (var_names : List String) (vals : List (String × Rat × Rat))
    (ic0 : List (String × Rat)) (fl0 : List (String × Expr))
    (hnd : (vals.map (fun q => q.1)).Nodup)
    (hfresh : ∀ q ∈ vals, ∀ p ∈ ic0, p.1 ≠ q.1) :
    (vals.foldl (gfsStep var_names) (ic0, fl0)).1 =
      ic0 ++ (vals.filter (fun q => !(q.1 == "time") && var_names.contains q.1)).map
        (fun q => (q.1, (q.2.1 + q.2.2) / 2)) := by
  induction vals generalizing ic0 fl0 with
  | nil => simp
  | cons q vals ih =>
    have hnd' : (vals.map (fun q => q.1)).Nodup := by
      rw [List.map_cons, List.nodup_cons] at hnd
      exact hnd.2
    have hq1 : q.1 ∉ vals.map (fun q => q.1) := by
      rw [List.map_cons, List.nodup_cons] at hnd
      exact hnd.1
    rw [List.foldl_cons]
    by_cases ht : q.1 = "time"
    · have hstep : gfsStep var_names (ic0, fl0) q = (ic0, fl0) := by
        simp [gfsStep, ht]
      rw [hstep, ih ic0 fl0 hnd' (fun r hr => hfresh r (List.mem_cons.mpr (Or.inr hr)))]
      have hfil : (q :: vals).filter (fun q => !(q.1 == "time") && var_names.contains q.1) =
          vals.filter (fun q => !(q.1 == "time") && var_names.contains q.1) := by
        simp [List.filter_cons, ht]
      rw [hfil]
    · by_cases hc : var_names.contains q.1 = true
      · have hmem : q.1 ∈ var_names := by simpa using hc
        have hstep : gfsStep var_names (ic0, fl0) q =
            (dinsert ic0 q.1 ((q.2.1 + q.2.2) / 2), fl0) := by
          simp [gfsStep, ht, hc, hmem]
        rw [hstep]
        rw [dinsert_fresh ic0 q.1 _ (fun p hp => hfresh q (List.mem_cons_self q vals) p hp)]
        have hfresh' : ∀ r ∈ vals, ∀ p ∈ ic0 ++ [(q.1, (q.2.1 + q.2.2) / 2)], p.1 ≠ r.1 := by
          intro r hr p hp
          rcases List.mem_append.mp hp with h | h
          · exact hfresh r (List.mem_cons.mpr (Or.inr hr)) p h
          · have hpq : p = (q.1, (q.2.1 + q.2.2) / 2) := by simpa using h
            rw [hpq]
            intro hcon
            exact hq1 (hcon ▸ List.mem_map_of_mem (fun q => q.1) hr)
        rw [ih _ fl0 hnd' hfresh']
        have hfil : (q :: vals).filter (fun q => !(q.1 == "time") && var_names.contains q.1) =
            q :: vals.filter (fun q => !(q.1 == "time") && var_names.contains q.1) := by
          simp [List.filter_cons, ht, hc, hmem]
        rw [hfil, List.map_cons, List.append_assoc]
        rfl
      · have hc' : var_names.contains q.1 = false := by
          revert hc
          cases var_names.contains q.1 <;> simp
        have hnmem : q.1 ∉ var_names := by simpa using hc'
        have hstep : gfsStep var_names (ic0, fl0) q =
            (ic0, substFlow fl0 q.1 ((q.2.1 + q.2.2) / 2)) := by
          simp [gfsStep, ht, hc', hnmem]
        rw [hstep, ih ic0 _ hnd' (fun r hr => hfresh r (List.mem_cons.mpr (Or.inr hr)))]
        have hfil : (q :: vals).filter (fun q => !(q.1 == "time") && var_names.contains q.1) =
            vals.filter (fun q => !(q.1 == "time") && var_names.contains q.1) := by
          simp [List.filter_cons, ht, hc', hnmem]
        rw [hfil]

theorem map_eq_self_forall {α : Type} (f : α → α) :
    ∀ (l : List α), l.map f = l → ∀ y ∈ l, f y = y := by
  intro l
  induction l with
  | nil =>
    intro _ y hy
    simp at hy
  | cons a l ih =>
    intro heq y hy
    rw [List.map_cons] at heq
    obtain ⟨h1, h2⟩ := (List.cons.injEq _ _ _ _).mp heq
    rcases List.mem_cons.mp hy with h | h
    · rw [h]
      exact h1
    · exact ih h2 y h

/-- The state of the caller's `flow` dictionary after
`get_full_solution` returns: every expression has undergone the full
substitution sequence (applicable midpoints, then `SF`). -/
theorem get_full_solution_flow_after (crn : CRN) (flow : List (String × Expr))
    (vals : List (String × Rat × Rat)) (sf : Rat) :
    (get_full_solution crn flow vals sf).2.2 =
      flow.map (fun p => (p.1, substSeq (flow.map (fun r => r.1)) vals sf p.2)) := by
  show substFlow (vals.foldl (gfsStep (flow.map (fun p => p.1))) ([], flow)).2 "SF" sf = _
  rw [gfs_flow_eq, substFlow, List.map_map]
  apply List.map_congr_left
  intro p _
  rfl

/-- C4.  `get_full_solution`: each extracted value other than the
distinguished `"time"` entry either becomes an initial condition at its
interval midpoint (when its name is a flow species) or has its midpoint
substituted for its symbol in every flow expression; the scale-factor
symbol `SF` is then substituted everywhere and every derivative-named
entry is removed from the returned flow.  In particular, on the
specification's scenario (flow `X ↦ -(k_1·X)`, values
`X ↦ (0.9, 1.1)`, `k_1 ↦ (0.4, 0.6)`, scale factor `1`) it returns
initial condition `X = 1` and numeric flow `X ↦ -(0.5·X)`. -/
theorem get_full_solution_spec :
    (∀ (crn : CRN) (flow : List (String × Expr)) (vals : List (String × Rat × Rat))
        (sf : Rat), (vals.map (fun q => q.1)).Nodup →
      (get_full_solution crn flow vals sf).1 =
        (vals.filter (fun q => !(q.1 == "time") &&
            (flow.map (fun p => p.1)).contains q.1)).map
          (fun q => (q.1, (q.2.1 + q.2.2) / 2)) ∧
      (get_full_solution crn flow vals sf).2.2 =
        flow.map (fun p => (p.1, substSeq (flow.map (fun r => r.1)) vals sf p.2)) ∧
      (get_full_solution crn flow vals sf).2.1 =
        crn.derivatives.foldl delKey ((get_full_solution crn flow vals sf).2.2)) ∧
    get_full_solution ⟨[]⟩
        [("X", Expr.neg (Expr.mul (Expr.sym "k_1") (Expr.sym "X")))]
        [("X", (9 : Rat)/10, (11 : Rat)/10), ("k_1", (2 : Rat)/5, (3 : Rat)/5)] 1 =
      ([("X", 1)],
       [("X", Expr.neg (Expr.mul (Expr.num ((1 : Rat)/2)) (Expr.sym "X")))],
       [("X", Expr.neg (Expr.mul (Expr.num ((1 : Rat)/2)) (Expr.sym "X")))]) := by
  constructor
  · intro crn flow vals sf hnd
    refine ⟨?_, get_full_solution_flow_after crn flow vals sf, rfl⟩
    have h := gfs_ic_eq (flow.map (fun p => p.1)) vals [] flow hnd (by simp)
    rw [List.nil_append] at h
    exact h
  · simp +decide [get_full_solution, gfsStep, dinsert, substFlow, Expr.subsNum, delKey,
      List.contains, List.elem]
    norm_num

theorem get_full_solution_spec_witness :
    (get_full_solution ⟨["dx"]⟩
        [("X", Expr.mul (Expr.sym "k") (Expr.sym "X")), ("dx", Expr.sym "SF")]
        [("X", 0, 2), ("k", 0, 1)] 3).1 = [("X", 1)] ∧
    (get_full_solution ⟨["dx"]⟩
        [("X", Expr.mul (Expr.sym "k") (Expr.sym "X")), ("dx", Expr.sym "SF")]
        [("X", 0, 2), ("k", 0, 1)] 3).2.1 =
      [("X", Expr.mul (Expr.num ((1 : Rat)/2)) (Expr.sym "X"))] ∧
    (get_full_solution ⟨["dx"]⟩
        [("X", Expr.mul (Expr.sym "k") (Expr.sym "X")), ("dx", Expr.sym "SF")]
        [("X", 0, 2), ("k", 0, 1)] 3).2.2 =
      [("X", Expr.mul (Expr.num ((1 : Rat)/2)) (Expr.sym "X")), ("dx", Expr.num 3)] := by
  have h := get_full_solution_spec.1 ⟨["dx"]⟩
    [("X", Expr.mul (Expr.sym "k") (Expr.sym "X")), ("dx", Expr.sym "SF")]
    [("X", 0, 2), ("k", 0, 1)] 3 (by decide)
  refine ⟨?_, ?_, ?_⟩
  · rw [h.1]
    simp +decide [List.filter_cons, List.contains, List.elem]
  · rw [h.2.2, h.2.1]
    simp +decide [substSeq, applicableVals, substMid, Expr.subsNum, delKey,
      List.filter_cons, List.contains, List.elem, List.eraseP_cons]
  · rw [h.2.1]
    simp +decide [substSeq, applicableVals, substMid, Expr.subsNum,
      List.filter_cons, List.contains, List.elem]

/-- C10.  `get_full_solution` mutates its `flow` argument in place:
after the call the caller's flow has every applicable extracted
parameter and the scale-factor symbol `SF` replaced by numeric values
in every expression (so whenever any substitution changes an
expression, the input flow is not preserved across the call); only the
removal of derivative entries is performed on a copy. -/
theorem get_full_solution_mutates_flow (crn : CRN) (flow : List (String × Expr))
    (vals : List (String × Rat × Rat)) (sf : Rat) :
    (get_full_solution crn flow vals sf).2.2 =
      flow.map (fun p => (p.1, substSeq (flow.map (fun r => r.1)) vals sf p.2)) ∧
    (get_full_solution crn flow vals sf).2.1 =
      crn.derivatives.foldl delKey ((get_full_solution crn flow vals sf).2.2) ∧
    ((∃ p ∈ flow, substSeq (flow.map (fun r => r.1)) vals sf p.2 ≠ p.2) →
      (get_full_solution crn flow vals sf).2.2 ≠ flow) := by
  refine ⟨get_full_solution_flow_after crn flow vals sf, rfl, ?_⟩
  rintro ⟨p, hp, hne⟩ heq
  rw [get_full_solution_flow_after crn flow vals sf] at heq
  have := map_eq_self_forall
    (fun p => (p.1, substSeq (flow.map (fun r => r.1)) vals sf p.2)) flow heq p hp
  exact hne (congrArg Prod.snd this)

theorem get_full_solution_mutates_flow_witness :
    (get_full_solution ⟨[]⟩ [("X", Expr.mul (Expr.sym "k") (Expr.sym "X"))]
        [("k", 0, 1)] 1).2.2 ≠
      [("X", Expr.mul (Expr.sym "k") (Expr.sym "X"))] ∧
    (get_full_solution ⟨[]⟩ [("X", Expr.mul (Expr.sym "k") (Expr.sym "X"))]
        [("k", 0, 1)] 1).2.2 =
      [("X", Expr.mul (Expr.num ((1 : Rat)/2)) (Expr.sym "X"))] := by
  have h := get_full_solution_mutates_flow ⟨[]⟩
    [("X", Expr.mul (Expr.sym "k") (Expr.sym "X"))] [("k", 0, 1)] 1
  have hsub : substSeq ["X"] [("k", 0, 1)] 1
      (Expr.mul (Expr.sym "k") (Expr.sym "X")) =
      Expr.mul (Expr.num ((1 : Rat)/2)) (Expr.sym "X") := by
    simp +decide [substSeq, applicableVals, substMid, Expr.subsNum,
      List.filter_cons, List.contains, List.elem]
  constructor
  · refine h.2.2 ⟨("X", Expr.mul (Expr.sym "k") (Expr.sym "X")), by simp, ?_⟩
    rw [show (List.map (fun r => r.1)
      [("X", Expr.mul (Expr.sym "k") (Expr.sym "X"))]) = ["X"] from rfl, hsub]
    intro hcon
    simp at hcon
  · rw [h.1]
    rw [show (List.map (fun r => r.1)
      [("X", Expr.mul (Expr.sym "k") (Expr.sym "X"))]) = ["X"] from rfl]
    simp [hsub]

/-! ## C9: the time symbol of `gradient_function` -/

theorem foldl_update_not_key (ps : List (String × Rat)) (m : String → Option Rat)
    (s : String) (h : ∀ p ∈ ps, p.1 ≠ s) :
    (ps.foldl (fun m p => fun x => if x = p.1 then some p.2 else m x) m) s = m s := by
  induction ps generalizing m with
  | nil => rfl
  | cons p ps ih =>
    rw [List.foldl_cons, ih _ (fun r hr => h r (List.mem_cons.mpr (Or.inr hr)))]
    rw [if_neg (fun hh => h p (List.mem_cons_self p ps) hh.symm)]

/-- Counterexample to C9 as stated: the derivative evaluator binds the
current time to the symbol `"t"`, not `"time"` — an expression reading
the symbol `"time"` stays symbolic, while one reading `"t"` receives
the time value. -/
theorem gradient_function_time_counterexample :
    gradient_function [] 5 [("y", Expr.sym "time")] [] = [Expr.sym "time"] ∧
    gradient_function [] 5 [("y", Expr.sym "t")] [] = [Expr.num 5] ∧
    Expr.sym "time" ≠ Expr.num 5 := by
  refine ⟨by decide, by decide, by decide⟩

/-- C9 (amended).  `gradient_function` makes the current time available
to the symbolic expressions under the symbol `"t"` (not `"time"`) when
substituting and evaluating each flow expression: the substitution
dictionary binds `"t"` to the current time (unless shadowed by a
species of that name) and leaves `"time"` unbound. -/
theorem gradient_function_time_symbol (X : List Rat) (t : Rat)
    (flow : List (String × Expr)) (species_list : List String)
    (ht : "t" ∉ species_list) (htime : "time" ∉ species_list) :
    gradient_function X t flow species_list =
      flow.map (fun p => p.2.evalf (gradientVals X t species_list)) ∧
    gradientVals X t species_list "t" = some t ∧
    gradientVals X t species_list "time" = none ∧
    Expr.evalf (Expr.sym "t") (gradientVals X t species_list) = Expr.num t ∧
    Expr.evalf (Expr.sym "time") (gradientVals X t species_list) = Expr.sym "time" := by
  have hzip : ∀ s : String, s ∉ species_list →
      ∀ p ∈ species_list.zip X, p.1 ≠ s := by
    intro s hs p hp hcon
    obtain ⟨a, b⟩ := p
    exact hs (hcon ▸ (List.of_mem_zip hp).1)
  have h1 : gradientVals X t species_list "t" = some t := by
    rw [gradientVals, foldl_update_not_key _ _ _ (hzip "t" ht)]
    rw [if_pos rfl]
  have h2 : gradientVals X t species_list "time" = none := by
    rw [gradientVals, foldl_update_not_key _ _ _ (hzip "time" htime)]
    rw [if_neg (by decide : ¬("time" : String) = "t")]
  refine ⟨rfl, h1, h2, ?_, ?_⟩
  · rw [Expr.evalf, h1]
  · rw [Expr.evalf, h2]

theorem gradient_function_time_symbol_witness :
    gradientVals [2] 5 ["X"] "t" = some 5 ∧
    gradientVals [2] 5 ["X"] "time" = none ∧
    gradient_function [2] 5 [("X", Expr.mul (Expr.sym "t") (Expr.sym "X"))] ["X"] =
      [Expr.num 10] := by
  have h := gradient_function_time_symbol [2] 5
    [("X", Expr.mul (Expr.sym "t") (Expr.sym "X"))] ["X"] (by decide) (by decide)
  refine ⟨h.2.1, h.2.2.1, ?_⟩
  simp +decide [gradient_function, gradientVals, Expr.evalf]
  norm_num
